import Mathlib

/-!
Verification development for the character-level RNN notebook
(`Anna KaRNNa Name Scoped.ipynb`): a shallow embedding of its data
preparation (`split_data`, `get_batch`), vocabulary construction,
training-loop state threading, and sampling (`pick_top_n`, `sample`),
together with theorems settling the specification claims.

Conventions of the embedding:
  * numpy integer arrays become `List Nat`; 2-D arrays become `List (List Nat)`
    (rows);
  * probability vectors (numpy float arrays) become `List ℚ`;
  * Python code that can raise returns `Option` (`none` models a raised
    exception);
  * Python slice `a[i:j]` becomes `(a.drop i).take (j - i)` (Python slices
    clamp at the end of the list, as `take` does);
  * the LSTM cell, the optimizer and the TensorFlow session are abstracted as
    opaque step functions: the claims under study concern only how state and
    data flow around them.
-/

/-- Python's `int()` conversion of an exact rational: truncation toward zero.
For a nonnegative rational this is the floor `q.num / q.den` (the integer
division of Lean rounds toward negative infinity, which agrees with
truncation when `q.num ≥ 0`). -/
def pyInt (q : ℚ) : Int :=
  if 0 ≤ q.num then q.num / (q.den : Int) else -((-q.num) / (q.den : Int))

/-- The split index of `split_data`: `int(n_batches * split_frac)`.  The
product `n_batches * split_frac` is formed as the exact (not necessarily
reduced) fraction `n_batches * split_frac.num / split_frac.den`, whose
truncation equals that of the reduced form.  `Int.toNat` is the final use
as a nonnegative slice bound (every claim in scope has `split_frac ≥ 0`;
Python's negative-index slicing for negative fractions is not modelled). -/
def splitIdx (n_batches : Nat) (split_frac : ℚ) : Nat :=
  (if 0 ≤ split_frac.num
    then ((n_batches : Int) * split_frac.num) / (split_frac.den : Int)
    else -(((n_batches : Int) * (-split_frac.num)) / (split_frac.den : Int))).toNat

/-- Embedding of `np.split(l, B)` followed by `np.stack`: cut `l` into `B`
consecutive sections of equal length `l.length / B` and stack them as rows.
(numpy raises unless `B` divides `l.length`; `split_data` checks this before
calling.) -/
def npSplitRows (l : List Nat) (B : Nat) : List (List Nat) :=
  (List.range B).map fun i => (l.drop (i * (l.length / B))).take (l.length / B)

/-- Embedding of the notebook's `split_data(chars, batch_size, num_steps,
split_frac)`.

    slice_size = batch_size * num_steps
    n_batches  = int(len(chars) / slice_size)        -- ZeroDivisionError if 0
    x = chars[: n_batches*slice_size]
    y = chars[1: n_batches*slice_size + 1]
    x = np.stack(np.split(x, batch_size))            -- ValueError unless even
    y = np.stack(np.split(y, batch_size))            -- ValueError unless even
    split_idx = int(n_batches*split_frac)
    train_x, train_y = x[:, :split_idx*num_steps], y[:, :split_idx*num_steps]
    val_x,  val_y   = x[:, split_idx*num_steps:],  y[:, split_idx*num_steps:]

`none` models the raised `ZeroDivisionError` / `ValueError`. -/
def split_data (chars : List Nat) (batch_size num_steps : Nat) (split_frac : ℚ) :
    Option (List (List Nat) × List (List Nat) × List (List Nat) × List (List Nat)) :=
  let slice_size := batch_size * num_steps
  if slice_size = 0 then none else
  let n_batches := chars.length / slice_size
  let x := chars.take (n_batches * slice_size)
  let y := (chars.drop 1).take (n_batches * slice_size)
  if x.length % batch_size = 0 then
    if y.length % batch_size = 0 then
      let xm := npSplitRows x batch_size
      let ym := npSplitRows y batch_size
      let si := splitIdx n_batches split_frac
      some (xm.map (fun r => r.take (si * num_steps)),
            ym.map (fun r => r.take (si * num_steps)),
            xm.map (fun r => r.drop (si * num_steps)),
            ym.map (fun r => r.drop (si * num_steps)))
    else none
  else none

/-- Embedding of the notebook's generator `get_batch(arrs, num_steps)`:

    batch_size, slice_size = arrs[0].shape           -- IndexError if arrs == []
    n_batches = int(slice_size/num_steps)            -- ZeroDivisionError if 0
    for b in range(n_batches):
        yield [x[:, b*num_steps: (b+1)*num_steps] for x in arrs]

The lazy generator is embedded as the list of all yielded values (the
generator is driven by deterministic code, so the list of yields is a
function of the arguments).  The column count `slice_size` is read from the
first row of `arrs[0]`, so matrices with zero rows are outside the model. -/
def get_batch (arrs : List (List (List Nat))) (num_steps : Nat) :
    Option (List (List (List (List Nat)))) :=
  match arrs with
  | [] => none
  | a0 :: _ =>
    if num_steps = 0 then none else
    let slice_size := (a0.headD []).length
    let n_batches := slice_size / num_steps
    some ((List.range n_batches).map fun b =>
      arrs.map fun x => x.map fun row => (row.drop (b * num_steps)).take num_steps)

/-- The validation pass of the training loop: `new_state` is reset to the zero
state, then threaded through every validation batch in order; the result is
the state left in the `new_state` variable when the pass ends.  `valStep`
abstracts one `sess.run([cost, final_state])` on validation batch `i`. -/
def valRun {σ : Type} (valStep : σ → Nat → σ) (zero : σ) (nVal : Nat) : σ :=
  (List.range nVal).foldl valStep zero

/-- The training-batch loop of one epoch, recording for every training batch
the pair (state fed as `initial_state`, state returned as `final_state`).
Mirrors the notebook loop body:

    for b, (x, y) in enumerate(get_batch([train_x, train_y], num_steps), 1):
        iteration = e*n_batches + b
        batch_loss, new_state, _ = sess.run(..., initial_state: new_state)
        if (iteration%save_every_n == 0) or (iteration == iterations):
            new_state = sess.run(model.initial_state)     -- zero state
            for x, y in get_batch([val_x, val_y], num_steps):
                batch_loss, new_state = sess.run(..., initial_state: new_state)
            saver.save(...)

`trainStep` abstracts one training `sess.run` (forward, loss, optimizer) on
batch `b`, returning the final state.  After a periodic validation pass the
variable `new_state` holds the validation pass's final state, and that is
what the next training batch receives. -/
def trainLoopRec {σ : Type} (trainStep valStep : σ → Nat → σ) (zero : σ)
    (nVal save_every_n iterations n_batches e : Nat) :
    σ → List Nat → List (σ × σ)
  | _, [] => []
  | s, b :: bs =>
    let fin := trainStep s b
    let iteration := e * n_batches + b
    let s' := if iteration % save_every_n = 0 ∨ iteration = iterations
      then valRun valStep zero nVal else fin
    (s, fin) :: trainLoopRec trainStep valStep zero nVal save_every_n iterations
      n_batches e s' bs

/-- One training epoch `e` (of `epochs`): state starts at the zero state
(`new_state = sess.run(model.initial_state)` at epoch start), and the batch
counter `b` runs from 1 to `n_batches`; `iterations = n_batches * epochs` as
in the notebook.  Returns the per-batch (initial state, final state) record. -/
def epochRecord {σ : Type} (trainStep valStep : σ → Nat → σ) (zero : σ)
    (nVal save_every_n n_batches epochs e : Nat) : List (σ × σ) :=
  trainLoopRec trainStep valStep zero nVal save_every_n (n_batches * epochs)
    n_batches e zero ((List.range n_batches).map (fun b => b + 1))

/-- The state-carry invariant claimed for the training loop: for every pair of
consecutive training batches, the initial state fed to the later batch equals
the final state returned by the earlier batch. -/
def stateCarry {σ : Type} (r : List (σ × σ)) : Prop :=
  ∀ k p q, r[k]? = some p → r[k + 1]? = some q → q.1 = p.2

/-- The vocabulary enumeration of the notebook cell

    vocab = set(text)

modelled as a duplicate-free list of exactly the symbols occurring in the
corpus.  (CPython iterates a set object in some fixed order; `dedup` order
stands in for that unspecified enumeration order.) -/
def vocab (corpus : List Char) : List Char :=
  corpus.dedup

/-- The whole vocabulary-construction cell viewed as a fallible operation.
None of its Python steps (`set`, dict comprehensions, `np.array`) can raise
on any input, the empty corpus included, so the result is always `some`. -/
def buildVocab (corpus : List Char) : Option (List Char) :=
  some (vocab corpus)

/-- Embedding of `vocab_to_int = {c: i for i, c in enumerate(vocab)}`: a
symbol maps to its position in the vocabulary enumeration; a missing key
raises `KeyError`, modelled by `none`. -/
def vocab_to_int (corpus : List Char) (c : Char) : Option Nat :=
  if c ∈ vocab corpus then some (List.indexOf c (vocab corpus)) else none

/-- Embedding of `int_to_vocab = dict(enumerate(vocab))`: an id maps to the
symbol at that position of the vocabulary enumeration; a missing key raises
`KeyError`, modelled by `none`. -/
def int_to_vocab (corpus : List Char) (i : Nat) : Option Char :=
  (vocab corpus)[i]?

/-- Embedding of `np.argsort(p)`: the indices of `p`, ordered so that the
probabilities they point to are ascending.  (numpy promises a valid
ascending argsort; insertion sort is one such.) -/
def argsort (p : List ℚ) : List Nat :=
  List.insertionSort (fun i j => p.getD i 0 ≤ p.getD j 0) (List.range p.length)

/-- The index positions zeroed by `p[np.argsort(p)[:-top_n]] = 0` inside
`pick_top_n`: all but the last `top_n` entries of the argsort, i.e. the
indices of the `len(p) - top_n` smallest probabilities.  Python's `[:-k]`
is the empty slice when `k = 0` (since `-0 == 0`), so nothing is zeroed
then. -/
def zeroedIdx (p : List ℚ) (top_n : Nat) : List Nat :=
  if top_n = 0 then [] else (argsort p).take (p.length - top_n)

/-- The surviving index positions of `pick_top_n`: the last `top_n` entries
of the argsort, pointing at the `top_n` largest probabilities. -/
def keptIdx (p : List ℚ) (top_n : Nat) : List Nat :=
  if top_n = 0 then argsort p else (argsort p).drop (p.length - top_n)

/-- The state of the caller's `preds` array after `pick_top_n` returns.
`p = np.squeeze(preds)` is a view of the caller's array, so the in-place
assignment `p[np.argsort(p)[:-top_n]] = 0` writes through to the caller;
the later `p = p / np.sum(p)` rebinds the local name only and is invisible
to the caller. -/
def truncTopN (p : List ℚ) (top_n : Nat) : List ℚ :=
  (List.range p.length).map fun i => if i ∈ zeroedIdx p top_n then 0 else p.getD i 0

/-- The renormalized truncated distribution `p = p / np.sum(p)` that
`pick_top_n` hands to `np.random.choice`. -/
def topNProbs (p : List ℚ) (top_n : Nat) : List ℚ :=
  (truncTopN p top_n).map fun x => x / (truncTopN p top_n).sum

/-- Model of the stochastic draw `np.random.choice(vocab_size, 1, p=probs)`:
an index is a possible outcome exactly when its probability is positive.
(The draw itself is randomized; the embedding describes the set of values it
can return.) -/
def canPick (probs : List ℚ) (c : Nat) : Prop :=
  0 < probs.getD c 0

/-- The autoregressive generation loop of `sample`: starting from state `s`
and current symbol id `c`, it runs `n` iterations of

    x[0,0] = c
    preds, new_state = sess.run([model.preds, model.final_state], ...)
    c = pick_top_n(preds, len(vocab))
    samples.append(int_to_vocab[c])

returning the appended characters in order.  `step` abstracts one forward
`sess.run` of the sampling-shaped network, `pick` abstracts
`pick_top_n` together with its random draw, `i2v` the `int_to_vocab`
decoding. -/
def genLoop {σ π : Type} (step : σ → Nat → π × σ) (pick : π → Nat)
    (i2v : Nat → Char) : Nat → σ → Nat → List Char
  | 0, _, _ => []
  | n + 1, s, c =>
    let pr := (step s (c : Nat)).1
    let s' := (step s (c : Nat)).2
    let c' := pick pr
    i2v c' :: genLoop step pick i2v n s' c'

/-- Embedding of the notebook's `sample(checkpoint, n_samples, lstm_size,
vocab_size, prime)`.  The first body line `prime = "Far"` rebinds the
`prime` parameter to the literal string "Far" before it is ever read, so the
argument is ignored.  The prime replay feeds each character of "Far" in
turn, keeping only the last predictions and state; then one symbol is
picked and appended, and the generation loop appends `n_samples` more.
The `none` branch of the replay corresponds to an empty prime, where Python
would raise `NameError` on the unbound `preds`; it is unreachable because
the prime was rebound to "Far". -/
def sample {σ π : Type} (step : σ → Nat → π × σ) (pick : π → Nat) (zero : σ)
    (v2i : Char → Nat) (i2v : Nat → Char) (n_samples : Nat) (prime : String) :
    String :=
  let prime := "Far"
  let samples := prime.toList
  let rep := prime.toList.foldl
    (fun (a : Option π × σ) ch =>
      ((some (step a.2 (v2i ch)).1, (step a.2 (v2i ch)).2) : Option π × σ))
    ((none, zero) : Option π × σ)
  match rep.1 with
  | none => ""
  | some preds =>
    let c := pick preds
    String.mk (samples ++ i2v c :: genLoop step pick i2v n_samples rep.2 c)

/-- The property claimed of `split_data` on sufficient data (claim C2, with
`n_batches = ⌊len / (B·S)⌋` and `split_index = splitIdx n_batches f`):
the call succeeds; the split index agrees with the specified
`⌊n_batches · split_fraction⌋`; `train_x` has `B` rows of
`split_index · S` columns and `val_x` has `B` rows of
`(n_batches − split_index) · S` columns; `train_y[i, j] = train_x[i, j+1]`
at every column but the last; and every `train_y` entry — the last column
included — is the token at stream position `i · n_batches · S + j + 1`,
lane `i`'s contiguous continuation, never a token owned by another lane. -/
def SplitDataSpec (chars : List Nat) (B S : Nat) (f : ℚ) : Prop :=
  ∃ tx ty vx vy, split_data chars B S f = some (tx, ty, vx, vy) ∧
    splitIdx (chars.length / (B * S)) f =
      (⌊((chars.length / (B * S) : Nat) : ℚ) * f⌋).toNat ∧
    tx.length = B ∧
    (∀ r ∈ tx, r.length = splitIdx (chars.length / (B * S)) f * S) ∧
    vx.length = B ∧
    (∀ r ∈ vx, r.length =
      (chars.length / (B * S) - splitIdx (chars.length / (B * S)) f) * S) ∧
    (∀ i j, i < B → j + 1 < splitIdx (chars.length / (B * S)) f * S →
      (ty.getD i [])[j]? = (tx.getD i [])[j + 1]?) ∧
    (∀ i j, i < B → j < splitIdx (chars.length / (B * S)) f * S →
      (ty.getD i [])[j]? = chars[i * (chars.length / (B * S) * S) + j + 1]?)

/-- The property claimed of `get_batch` (claim C6) on a pair of `B × C` lane
matrices and window width `S`: the call succeeds with exactly `⌊C / S⌋`
windows; the `b`-th yielded value is the pair of windows of columns
`[b·S, (b+1)·S)` of `X` and of `Y`, in left-to-right column order, each of
shape `B × S`; and the generator is restartable — a second call on the same
arguments yields the identical sequence. -/
def IterateBatchesSpec (X Y : List (List Nat)) (B C S : Nat) : Prop :=
  ∃ ws, get_batch [X, Y] S = some ws ∧
    ws.length = C / S ∧
    (∀ b, b < C / S →
      ws[b]? = some [X.map (fun r => (r.drop (b * S)).take S),
                     Y.map (fun r => (r.drop (b * S)).take S)] ∧
      ∀ m ∈ [X.map (fun r => (r.drop (b * S)).take S),
             Y.map (fun r => (r.drop (b * S)).take S)],
        m.length = B ∧ ∀ row ∈ m, row.length = S) ∧
    get_batch [X, Y] S = get_batch [X, Y] S

/-- The property claimed of `pick_top_n` (claim C3): the surviving index set
has exactly `top_n` members; every surviving index carries probability at
least that of every zeroed index (so the survivors are `top_n`
highest-probability symbols); after truncation every zeroed symbol has
probability zero; the surviving probabilities renormalize to sum 1; and any
symbol the random draw can emit is one of the survivors. -/
def TopNSound (p : List ℚ) (top_n : Nat) : Prop :=
  (keptIdx p top_n).length = top_n ∧
  (∀ i ∈ keptIdx p top_n, ∀ j ∈ zeroedIdx p top_n, p.getD j 0 ≤ p.getD i 0) ∧
  (∀ j ∈ zeroedIdx p top_n, (topNProbs p top_n).getD j 0 = 0) ∧
  (topNProbs p top_n).sum = 1 ∧
  (∀ c, canPick (topNProbs p top_n) c → c ∈ keptIdx p top_n)

lemma genLoop_length {σ π : Type} (step : σ → Nat → π × σ) (pick : π → Nat)
    (i2v : Nat → Char) (n : Nat) :
    ∀ (s : σ) (c : Nat), (genLoop step pick i2v n s c).length = n := by
  induction n with
  | zero => intro s c; rfl
  | succ n ih => intro s c; simp [genLoop, ih]

lemma npSplitRows_nil (B : Nat) : npSplitRows [] B = List.replicate B [] := by
  simp [npSplitRows, List.eq_replicate_iff]

lemma length_npSplitRows (l : List Nat) (B : Nat) : (npSplitRows l B).length = B := by
  simp [npSplitRows]

lemma npSplitRows_row (l : List Nat) (B i : Nat) (hi : i < B) :
    (npSplitRows l B).getD i [] =
      (l.drop (i * (l.length / B))).take (l.length / B) := by
  rw [npSplitRows, List.getD_eq_getElem?_getD, List.getElem?_map,
    List.getElem?_range hi]
  rfl

lemma map_row_getD (m : List (List Nat)) (g : List Nat → List Nat) (i : Nat)
    (hi : i < m.length) :
    (m.map g).getD i [] = g (m.getD i []) := by
  rw [List.getD_eq_getElem?_getD, List.getElem?_map, List.getElem?_eq_getElem hi,
    List.getD_eq_getElem?_getD, List.getElem?_eq_getElem hi]
  rfl

lemma npSplitRows_mem (l : List Nat) (B K : Nat) (hl : l.length = B * K)
    (r : List Nat) (hr : r ∈ npSplitRows l B) :
    ∃ i, i < B ∧ r = (l.drop (i * K)).take K ∧ r.length = K := by
  obtain ⟨i, hiB, rfl⟩ := List.mem_map.mp hr
  have hi := List.mem_range.mp hiB
  have hBpos : 0 < B := Nat.lt_of_le_of_lt (Nat.zero_le i) hi
  have hdiv : l.length / B = K := by
    rw [hl]
    exact Nat.mul_div_cancel_left K hBpos
  refine ⟨i, hi, by rw [hdiv], ?_⟩
  rw [hdiv, List.length_take, List.length_drop, hl]
  have h1 : (i + 1) * K ≤ B * K := Nat.mul_le_mul_right K hi
  rw [Nat.succ_mul] at h1
  omega

lemma npSplitRows_getD_entry (l : List Nat) (B K i j : Nat) (hl : l.length = B * K)
    (hi : i < B) (hj : j < K) :
    ((npSplitRows l B).getD i [])[j]? = l[i * K + j]? := by
  have hBpos : 0 < B := Nat.lt_of_le_of_lt (Nat.zero_le i) hi
  have hdiv : l.length / B = K := by
    rw [hl]
    exact Nat.mul_div_cancel_left K hBpos
  rw [npSplitRows_row l B i hi, hdiv, List.getElem?_take_of_lt hj,
    List.getElem?_drop]

lemma splitIdx_eq_floor (n : Nat) (f : ℚ) (hf : 0 ≤ f) :
    splitIdx n f = (⌊(n : ℚ) * f⌋).toNat := by
  have hnum : 0 ≤ f.num := Rat.num_nonneg.mpr hf
  rw [splitIdx, if_pos hnum]
  congr 1
  have hden : ((f.den : ℚ)) ≠ 0 :=
    Nat.cast_ne_zero.mpr (Nat.pos_iff_ne_zero.mp f.pos)
  have hfden : (f.num : ℚ) = f * ((f.den : ℚ)) :=
    (div_eq_iff hden).mp (Rat.num_div_den f)
  have hmul : (n : ℚ) * f = (((n : Int) * f.num : Int) : ℚ) / ((f.den : Nat) : ℚ) := by
    rw [eq_div_iff hden]
    push_cast
    rw [hfden]
    ring
  rw [hmul, Rat.floor_intCast_div_natCast]

lemma splitIdx_le (n : Nat) (f : ℚ) (hf0 : 0 ≤ f) (hf1 : f ≤ 1) :
    splitIdx n f ≤ n := by
  rw [splitIdx_eq_floor n f hf0, Int.toNat_le]
  have hle : (n : ℚ) * f ≤ (n : ℚ) :=
    mul_le_of_le_one_right (by positivity) hf1
  calc ⌊(n : ℚ) * f⌋ ≤ ⌊((n : Nat) : ℚ)⌋ := Int.floor_le_floor hle
    _ = (n : Int) := Int.floor_natCast n

lemma table_eq (p : List ℚ) :
    (List.range p.length).map (fun i => p.getD i 0) = p := by
  apply List.ext_getElem
  · simp
  · intro i h1 h2
    simp only [List.getElem_map, List.getElem_range]
    rw [List.getD_eq_getElem?_getD, List.getElem?_eq_getElem h2]
    rfl

lemma sum_map_div (l : List ℚ) (c : ℚ) :
    (l.map (fun x => x / c)).sum = l.sum / c := by
  induction l with
  | nil => simp
  | cons a l ih => simp [ih, add_div]

lemma sum_nonneg_all_zero (l : List ℚ) (h : ∀ x ∈ l, 0 ≤ x) (hs : l.sum = 0) :
    ∀ x ∈ l, x = 0 := by
  induction l with
  | nil => simp
  | cons a l ih =>
    rw [List.sum_cons] at hs
    have ha : 0 ≤ a := h a (List.mem_cons_self _ _)
    have hl : 0 ≤ l.sum := List.sum_nonneg fun x hx => h x (List.mem_cons_of_mem _ hx)
    have ha0 : a = 0 := by linarith
    have hl0 : l.sum = 0 := by linarith
    intro x hx
    rcases List.mem_cons.mp hx with rfl | hx'
    · exact ha0
    · exact ih (fun x hx => h x (List.mem_cons_of_mem _ hx)) hl0 x hx'

lemma argsort_perm (p : List ℚ) : (argsort p).Perm (List.range p.length) :=
  List.perm_insertionSort _ _

lemma argsort_length (p : List ℚ) : (argsort p).length = p.length := by
  rw [(argsort_perm p).length_eq, List.length_range]

lemma mem_argsort (p : List ℚ) (i : Nat) : i ∈ argsort p ↔ i < p.length := by
  rw [(argsort_perm p).mem_iff, List.mem_range]

lemma argsort_nodup (p : List ℚ) : (argsort p).Nodup :=
  (argsort_perm p).nodup_iff.mpr (List.nodup_range _)

lemma argsort_sorted (p : List ℚ) :
    (argsort p).Pairwise (fun i j => p.getD i 0 ≤ p.getD j 0) := by
  haveI : IsTotal Nat (fun i j => p.getD i 0 ≤ p.getD j 0) :=
    ⟨fun a b => le_total _ _⟩
  haveI : IsTrans Nat (fun i j => p.getD i 0 ≤ p.getD j 0) :=
    ⟨fun a b c hab hbc => le_trans hab hbc⟩
  exact List.sorted_insertionSort _ _

lemma zeroed_kept_append (p : List ℚ) (t : Nat) (ht : t ≠ 0) :
    zeroedIdx p t ++ keptIdx p t = argsort p := by
  rw [zeroedIdx, keptIdx, if_neg ht, if_neg ht, List.take_append_drop]

lemma mem_zeroedIdx_lt (p : List ℚ) (t j : Nat) (hj : j ∈ zeroedIdx p t) :
    j < p.length := by
  rw [zeroedIdx] at hj
  by_cases ht : t = 0
  · rw [if_pos ht] at hj
    exact absurd hj (List.not_mem_nil j)
  · rw [if_neg ht] at hj
    exact (mem_argsort p j).mp (List.mem_of_mem_take hj)

lemma mem_keptIdx_lt (p : List ℚ) (t i : Nat) (hi : i ∈ keptIdx p t) :
    i < p.length := by
  rw [keptIdx] at hi
  by_cases ht : t = 0
  · rw [if_pos ht] at hi
    exact (mem_argsort p i).mp hi
  · rw [if_neg ht] at hi
    exact (mem_argsort p i).mp (List.mem_of_mem_drop hi)

lemma keptIdx_length (p : List ℚ) (t : Nat) (h1 : t ≠ 0) (h2 : t ≤ p.length) :
    (keptIdx p t).length = t := by
  rw [keptIdx, if_neg h1, List.length_drop, argsort_length]
  omega

lemma zeroed_kept_dominance (p : List ℚ) (t : Nat) (ht : t ≠ 0) :
    ∀ i ∈ keptIdx p t, ∀ j ∈ zeroedIdx p t, p.getD j 0 ≤ p.getD i 0 := by
  intro i hi j hj
  have hp := argsort_sorted p
  rw [← zeroed_kept_append p t ht] at hp
  exact (List.pairwise_append.mp hp).2.2 j hj i hi

lemma zeroed_kept_disjoint (p : List ℚ) (t : Nat) (ht : t ≠ 0) :
    ∀ a, a ∈ keptIdx p t → a ∉ zeroedIdx p t := by
  have hnd : (zeroedIdx p t ++ keptIdx p t).Nodup := by
    rw [zeroed_kept_append p t ht]
    exact argsort_nodup p
  intro a ha hz
  exact (List.nodup_append.mp hnd).2.2 hz ha

lemma mem_zeroed_or_kept (p : List ℚ) (t i : Nat) (ht : t ≠ 0)
    (hi : i < p.length) : i ∈ zeroedIdx p t ∨ i ∈ keptIdx p t := by
  have : i ∈ zeroedIdx p t ++ keptIdx p t := by
    rw [zeroed_kept_append p t ht]
    exact (mem_argsort p i).mpr hi
  exact List.mem_append.mp this

lemma truncTopN_length (p : List ℚ) (t : Nat) :
    (truncTopN p t).length = p.length := by
  simp [truncTopN]

lemma truncTopN_getD_zeroed (p : List ℚ) (t j : Nat) (hj : j ∈ zeroedIdx p t) :
    (truncTopN p t).getD j 0 = 0 := by
  have hjl : j < p.length := mem_zeroedIdx_lt p t j hj
  rw [truncTopN, List.getD_eq_getElem?_getD, List.getElem?_map,
    List.getElem?_range hjl]
  simp [hj]

lemma truncTopN_getD_other (p : List ℚ) (t k : Nat) (hk : k < p.length)
    (h : k ∉ zeroedIdx p t) : (truncTopN p t).getD k 0 = p.getD k 0 := by
  rw [truncTopN, List.getD_eq_getElem?_getD, List.getElem?_map,
    List.getElem?_range hk]
  simp [h]

lemma truncTopN_nonneg (p : List ℚ) (t : Nat) (hpos : ∀ x ∈ p, 0 ≤ x) :
    ∀ x ∈ truncTopN p t, 0 ≤ x := by
  intro x hx
  obtain ⟨i, hi, rfl⟩ := List.mem_map.mp hx
  have hil := List.mem_range.mp hi
  by_cases hz : i ∈ zeroedIdx p t
  · rw [if_pos hz]
  · rw [if_neg hz]
    rw [List.getD_eq_getElem?_getD, List.getElem?_eq_getElem hil]
    exact hpos _ (List.getElem_mem hil)

lemma getD_mem_of_lt (l : List ℚ) (i : Nat) (hi : i < l.length) :
    l.getD i 0 ∈ l := by
  rw [List.getD_eq_getElem?_getD, List.getElem?_eq_getElem hi]
  exact List.getElem_mem hi

lemma truncTopN_sum_ne_zero (p : List ℚ) (t : Nat)
    (hpos : ∀ x ∈ p, 0 ≤ x) (hsum : p.sum = 1)
    (h1 : 1 ≤ t) (h2 : t ≤ p.length) : (truncTopN p t).sum ≠ 0 := by
  intro hT0
  have ht : t ≠ 0 := by omega
  have hall := sum_nonneg_all_zero _ (truncTopN_nonneg p t hpos) hT0
  have hkept0 : ∀ i ∈ keptIdx p t, p.getD i 0 = 0 := by
    intro i hi
    have hil : i < p.length := mem_keptIdx_lt p t i hi
    have hnz : i ∉ zeroedIdx p t := zeroed_kept_disjoint p t ht i hi
    have := hall _ (getD_mem_of_lt (truncTopN p t) i
      (by rw [truncTopN_length]; exact hil))
    rw [truncTopN_getD_other p t i hil hnz] at this
    exact this
  have hkne : keptIdx p t ≠ [] := by
    intro hnil
    have := keptIdx_length p t ht h2
    rw [hnil] at this
    simp at this
    omega
  obtain ⟨i0, hi0⟩ := List.exists_mem_of_ne_nil _ hkne
  have hzero0 : ∀ j ∈ zeroedIdx p t, p.getD j 0 = 0 := by
    intro j hj
    have hjl : j < p.length := mem_zeroedIdx_lt p t j hj
    have hle := zeroed_kept_dominance p t ht i0 hi0 j hj
    rw [hkept0 i0 hi0] at hle
    have hge : 0 ≤ p.getD j 0 := hpos _ (getD_mem_of_lt p j hjl)
    linarith
  have hallp : ∀ i, i < p.length → p.getD i 0 = 0 := by
    intro i hi
    rcases mem_zeroed_or_kept p t i ht hi with hz | hk
    · exact hzero0 i hz
    · exact hkept0 i hk
  have hps : p.sum = 0 := by
    rw [← table_eq p]
    apply List.sum_eq_zero
    intro x hx
    obtain ⟨i, hi, rfl⟩ := List.mem_map.mp hx
    exact hallp i (List.mem_range.mp hi)
  rw [hsum] at hps
  exact one_ne_zero hps

lemma map_div_getD (l : List ℚ) (c : ℚ) (j : Nat) (hj : j < l.length) :
    (l.map (fun x => x / c)).getD j 0 = l.getD j 0 / c := by
  rw [List.getD_eq_getElem?_getD, List.getElem?_map, List.getElem?_eq_getElem hj,
    List.getD_eq_getElem?_getD, List.getElem?_eq_getElem hj]
  rfl

/-- C1.  The claimed invariant — the hidden state is reset to zero only at
epoch start and every later training batch is fed exactly the previous
training batch's final state — is broken by the code whenever a periodic
validation pass fires between two training batches of the same epoch: the
loop reuses the variable `new_state` for the validation pass, so the next
training batch is fed the validation pass's final state instead.  Concrete
run: one epoch of 3 batches, `save_every_n = 2`, one validation batch,
abstract state σ = ℕ with zero state 0, training step `s + 1`, validation
step `s + 100`.  Validation fires at iteration 2, and batch 3 is fed state
100 (the validation pass's final state) while batch 2 returned state 2. -/
theorem train_state_carry_violated :
    ¬ stateCarry (epochRecord (fun s _ => s + 1) (fun s _ => s + 100) (0 : Nat)
      1 2 3 1 0) := by
  intro h
  have h2 := h 1 ((1 : Nat), (2 : Nat)) ((100 : Nat), (101 : Nat))
    (by decide) (by decide)
  exact absurd h2 (by decide)

/-- C4 counterexample.  The claim says the string returned by `sample` is the
`prime` argument followed by exactly `n_samples` generated symbols, hence
equals `prime` itself when `n_samples = 0`.  At the concrete call with
`prime = "The "` and `n_samples = 0` the code returns "Farz" (the body
rebinds `prime` to "Far" and appends one extra symbol before the loop), not
"The ". -/
theorem sample_prime_ignored_cex :
    sample (fun (_ : Unit) (_ : Nat) => ((), ())) (fun _ => 0) ()
      (fun _ => 0) (fun _ => 'z') 0 "The " ≠ "The " := by decide

/-- C4 amended.  For every call, `sample` returns the hard-coded prime "Far"
(the `prime` argument is rebound to "Far" before being read, so it is
ignored) concatenated with the generated symbols in generation order, and
exactly `n_samples + 1` symbols are generated (one before the loop and one
per loop iteration), so the result has length `3 + (n_samples + 1)` and
begins with "Far". -/
theorem sample_output_shape {σ π : Type} (step : σ → Nat → π × σ)
    (pick : π → Nat) (zero : σ) (v2i : Char → Nat) (i2v : Nat → Char)
    (n_samples : Nat) (prime : String) :
    ∃ gen : List Char, gen.length = n_samples + 1 ∧
      (sample step pick zero v2i i2v n_samples prime).data = "Far".data ++ gen := by
  refine ⟨_, ?_, rfl⟩
  simp [genLoop_length]

/-- C7 counterexample.  The claim says `split_data` fails with an
InsufficientData error when `n_batches = 0`.  At the concrete input
`chars = [0]`, `batch_size = 1`, `num_steps = 2` (so `n_batches = 0`) the
code raises nothing and returns four 1 × 0 matrices. -/
theorem split_data_no_insufficient_error_cex :
    split_data [0] 1 2 1 = some ([[]], [[]], [[]], [[]]) := by decide

/-- C7 amended.  When `n_batches = 0` (a corpus shorter than one full
`batch_size · num_steps` slice, with `batch_size · num_steps > 0`),
`split_data` does not fail: it silently returns four lane matrices of
`batch_size` rows and zero columns. -/
theorem split_data_empty_result (chars : List Nat) (B S : Nat) (f : ℚ)
    (h0 : 0 < B * S) (hlen : chars.length < B * S) :
    split_data chars B S f =
      some (List.replicate B [], List.replicate B [],
            List.replicate B [], List.replicate B []) := by
  have h0' : B * S ≠ 0 := Nat.pos_iff_ne_zero.mp h0
  have hn : chars.length / (B * S) = 0 := Nat.div_eq_of_lt hlen
  simp [split_data, hn, h0', npSplitRows_nil, List.map_replicate]

/-- Witness for C7 amended: the concrete instance `chars = [0]`,
`batch_size = 1`, `num_steps = 2`, `split_frac = 1`. -/
theorem split_data_empty_result_witness :
    0 < 1 * 2 ∧ ([0] : List Nat).length < 1 * 2 ∧
      split_data [0] 1 2 1 =
        some (List.replicate 1 [], List.replicate 1 [],
              List.replicate 1 [], List.replicate 1 []) :=
  ⟨by decide, by decide, split_data_empty_result [0] 1 2 1 (by decide) (by decide)⟩

/-- C9 counterexample.  The claim says vocabulary construction fails on the
empty corpus.  On the empty corpus the code raises nothing: `set('')` is the
empty set and both dictionaries are empty, so the build succeeds with an
empty vocabulary. -/
theorem build_vocab_empty_cex : buildVocab [] = some [] := rfl

/-- C9 amended.  Vocabulary construction never fails: on every corpus,
including the empty one, it succeeds, and the resulting vocabulary is
duplicate-free and contains exactly the symbols occurring in the corpus
(the empty vocabulary for the empty corpus). -/
theorem build_vocab_total (corpus : List Char) :
    ∃ v, buildVocab corpus = some v ∧ v.Nodup ∧ (∀ s, s ∈ v ↔ s ∈ corpus) :=
  ⟨vocab corpus, rfl, List.nodup_dedup corpus, fun _ => List.mem_dedup⟩

/-- C5.  For every input accepted by `split_data`, lane `i` of the lane
matrix is the `i`-th contiguous block of the truncated token stream:
concatenating lane `i`'s training columns and validation columns in order
reproduces exactly positions
`[i · n_batches · S, (i+1) · n_batches · S)` of the truncated stream
(`n_batches = ⌊len / (B·S)⌋`), a contiguous non-overlapping block, not an
interleaving. -/
theorem split_data_lane_reconstruction (chars : List Nat) (B S : Nat) (f : ℚ)
    (tx ty vx vy : List (List Nat))
    (h : split_data chars B S f = some (tx, ty, vx, vy)) (i : Nat) (hi : i < B) :
    tx.getD i [] ++ vx.getD i [] =
      ((chars.take (chars.length / (B * S) * (B * S))).drop
        (i * (chars.length / (B * S) * S))).take (chars.length / (B * S) * S) := by
  simp only [split_data] at h
  by_cases h0 : B * S = 0
  · simp [h0] at h
  rw [if_neg h0] at h
  by_cases hx : (chars.take (chars.length / (B * S) * (B * S))).length % B = 0
  swap
  · rw [if_neg hx] at h
    exact absurd h (by simp)
  rw [if_pos hx] at h
  by_cases hy : ((chars.drop 1).take (chars.length / (B * S) * (B * S))).length % B = 0
  swap
  · rw [if_neg hy] at h
    exact absurd h (by simp)
  rw [if_pos hy] at h
  simp only [Option.some.injEq, Prod.mk.injEq] at h
  obtain ⟨h1, h2, h3, h4⟩ := h
  subst h1 h3
  have hB : 0 < B := by
    rcases Nat.eq_zero_or_pos B with hB0 | hB0
    · exact absurd (by rw [hB0, Nat.zero_mul]) h0
    · exact hB0
  have hxlen : (chars.take (chars.length / (B * S) * (B * S))).length =
      chars.length / (B * S) * (B * S) := by
    rw [List.length_take]
    exact Nat.min_eq_left (Nat.div_mul_le_self _ _)
  have hdiv : (chars.take (chars.length / (B * S) * (B * S))).length / B =
      chars.length / (B * S) * S := by
    rw [hxlen, Nat.mul_comm B S, ← Nat.mul_assoc, Nat.mul_div_cancel _ hB]
  rw [map_row_getD _ _ i (by rw [length_npSplitRows]; exact hi),
      map_row_getD _ _ i (by rw [length_npSplitRows]; exact hi),
      npSplitRows_row _ _ i hi, hdiv, List.take_append_drop]

/-- Witness for C5: the concrete stream `[0,1,2,3,4]` with `B = 2`, `S = 1`,
`split_frac = 1` and lane `i = 1`. -/
theorem split_data_lane_reconstruction_witness :
    (split_data [0, 1, 2, 3, 4] 2 1 1 =
      some ([[0, 1], [2, 3]], [[1, 2], [3, 4]], [[], []], [[], []])) ∧ 1 < 2 ∧
    ([[0, 1], [2, 3]] : List (List Nat)).getD 1 [] ++
        ([[], []] : List (List Nat)).getD 1 [] =
      ((([0, 1, 2, 3, 4] : List Nat).take
          (([0, 1, 2, 3, 4] : List Nat).length / (2 * 1) * (2 * 1))).drop
        (1 * (([0, 1, 2, 3, 4] : List Nat).length / (2 * 1) * 1))).take
        (([0, 1, 2, 3, 4] : List Nat).length / (2 * 1) * 1) :=
  ⟨by decide, by decide,
    split_data_lane_reconstruction [0, 1, 2, 3, 4] 2 1 1 [[0, 1], [2, 3]]
      [[1, 2], [3, 4]] [[], []] [[], []] (by decide) 1 (by decide)⟩

/-- C8.  For every corpus and symbol `s` occurring in it, the built
vocabulary satisfies the round trip
`int_to_vocab[vocab_to_int[s]] == s`, and the mapping is a bijection
between the observed symbol set and the ids `[0, V)`: every observed symbol
has an id below `V = |vocab|`, every id below `V` decodes to an observed
symbol, the two maps are mutually inverse, and the enumeration is
duplicate-free. -/
theorem vocab_roundtrip_bijection (corpus : List Char) (s : Char)
    (hs : s ∈ corpus) :
    (∃ i, vocab_to_int corpus s = some i ∧ i < (vocab corpus).length ∧
      int_to_vocab corpus i = some s) ∧
    (∀ i, i < (vocab corpus).length →
      ∃ t, int_to_vocab corpus i = some t ∧ t ∈ corpus ∧
        vocab_to_int corpus t = some i) ∧
    (vocab corpus).Nodup := by
  have hnd : (vocab corpus).Nodup := List.nodup_dedup corpus
  have hsv : s ∈ vocab corpus := List.mem_dedup.mpr hs
  refine ⟨?_, ?_, hnd⟩
  · have hlt : List.indexOf s (vocab corpus) < (vocab corpus).length :=
      List.indexOf_lt_length.mpr hsv
    refine ⟨List.indexOf s (vocab corpus), by simp [vocab_to_int, hsv], hlt, ?_⟩
    rw [int_to_vocab, List.getElem?_eq_getElem hlt]
    exact congrArg some (List.getElem_indexOf hlt)
  · intro i hilt
    have hmem : (vocab corpus)[i] ∈ vocab corpus := List.getElem_mem hilt
    refine ⟨(vocab corpus)[i], ?_, List.mem_dedup.mp hmem, ?_⟩
    · rw [int_to_vocab, List.getElem?_eq_getElem hilt]
    · rw [vocab_to_int, if_pos hmem]
      have hidx := List.get_indexOf hnd ⟨i, hilt⟩
      simp only [List.get_eq_getElem] at hidx
      exact congrArg some hidx

/-- Witness for C8: the concrete corpus `['a', 'b', 'a']` and symbol 'b'. -/
theorem vocab_roundtrip_bijection_witness :
    'b' ∈ (['a', 'b', 'a'] : List Char) ∧
    ((∃ i, vocab_to_int ['a', 'b', 'a'] 'b' = some i ∧
        i < (vocab ['a', 'b', 'a']).length ∧
        int_to_vocab ['a', 'b', 'a'] i = some 'b') ∧
    (∀ i, i < (vocab ['a', 'b', 'a']).length →
      ∃ t, int_to_vocab ['a', 'b', 'a'] i = some t ∧
        t ∈ (['a', 'b', 'a'] : List Char) ∧
        vocab_to_int ['a', 'b', 'a'] t = some i) ∧
    (vocab ['a', 'b', 'a']).Nodup) :=
  ⟨by decide, vocab_roundtrip_bijection ['a', 'b', 'a'] 'b' (by decide)⟩

/-- C6.  For every pair of lane matrices `X`, `Y` with `B > 0` rows of `C`
columns each and every window width `S > 0`, `get_batch` yields exactly
`⌊C / S⌋` windows, the `b`-th being the `B × S` column slice
`[b·S, (b+1)·S)` of `X` paired with the same slice of `Y` — left-to-right
column order — and it is restartable: a second call on the same matrices
yields the identical sequence (the embedded generator is a pure function of
its arguments). -/
theorem get_batch_spec (X Y : List (List Nat)) (B C S : Nat)
    (hX : X.length = B) (hY : Y.length = B) (hB : 0 < B)
    (hrX : ∀ r ∈ X, r.length = C) (hrY : ∀ r ∈ Y, r.length = C) (hS : 0 < S) :
    IterateBatchesSpec X Y B C S := by
  have hXne : X ≠ [] := by
    intro hnil
    rw [hnil] at hX
    simp at hX
    omega
  obtain ⟨x0, xt, rfl⟩ := List.exists_cons_of_ne_nil hXne
  have hC : x0.length = C := hrX x0 (List.mem_cons_self _ _)
  have hgb : get_batch [x0 :: xt, Y] S =
      some ((List.range (C / S)).map fun b =>
        [(x0 :: xt).map (fun r => (r.drop (b * S)).take S),
         Y.map (fun r => (r.drop (b * S)).take S)]) := by
    simp only [get_batch, List.headD_cons, hC]
    rw [if_neg (Nat.pos_iff_ne_zero.mp hS)]
    rfl
  refine ⟨_, hgb, by simp, ?_, rfl⟩
  intro b hb
  have hwin : ∀ (Z : List (List Nat)), Z.length = B → (∀ r ∈ Z, r.length = C) →
      (Z.map (fun r => (r.drop (b * S)).take S)).length = B ∧
      ∀ row ∈ Z.map (fun r => (r.drop (b * S)).take S), row.length = S := by
    intro Z hZ hrZ
    refine ⟨by simp [hZ], ?_⟩
    intro row hrow
    obtain ⟨r, hr, rfl⟩ := List.mem_map.mp hrow
    have hrC := hrZ r hr
    have hbs : b * S + S ≤ C := by
      have h1 : (b + 1) * S ≤ C / S * S := Nat.mul_le_mul_right S hb
      rw [Nat.succ_mul] at h1
      exact h1.trans (Nat.div_mul_le_self C S)
    rw [List.length_take, List.length_drop, hrC]
    omega
  refine ⟨?_, ?_⟩
  · rw [List.getElem?_map, List.getElem?_range hb]
    rfl
  · intro m hm
    simp only [List.mem_cons, List.not_mem_nil, or_false] at hm
    rcases hm with rfl | rfl
    · exact hwin _ hX hrX
    · exact hwin _ hY hrY

/-- C2 counterexample.  The claim asks only `len(tokens) ≥ B·S`; at
`chars = [0,1,2,3]`, `B = 2`, `S = 2` (so `len = B·S = 4` exactly and
`n_batches = 1`), the target slice `chars[1 : 5]` has only 3 elements, and
`np.split` of 3 elements into 2 rows raises ValueError, so `split_data`
fails instead of returning the claimed shapes. -/
theorem split_data_exact_length_cex :
    split_data [0, 1, 2, 3] 2 2 (1 / 2) = none := by decide

/-- C2 amended.  The claim holds once the corpus is long enough to supply the
one extra trailing target token the code reads past the truncation bound:
for `B, S ≥ 1`, `0 ≤ split_frac ≤ 1`, `len(tokens) ≥ B·S` and
`len(tokens) ≥ n_batches·B·S + 1` (with `n_batches = ⌊len/(B·S)⌋`),
`split_data` succeeds; `split_index` is `⌊n_batches · split_frac⌋`;
`train_x` is `B × (split_index·S)` and `val_x` is
`B × ((n_batches − split_index)·S)`; `train_y[i,j] = train_x[i,j+1]` for
every column but the last; and every `train_y[i,j]` — the last column
included — is the token at position `i·n_batches·S + j + 1` of the stream,
lane `i`'s contiguous continuation, never a token of another lane. -/
theorem split_data_spec (chars : List Nat) (B S : Nat) (f : ℚ)
    (hB : 0 < B) (hS : 0 < S) (hf0 : 0 ≤ f) (hf1 : f ≤ 1)
    (hBS : B * S ≤ chars.length)
    (hx1 : chars.length / (B * S) * (B * S) + 1 ≤ chars.length) :
    SplitDataSpec chars B S f := by
  have h0 : B * S ≠ 0 := Nat.pos_iff_ne_zero.mp (Nat.mul_pos hB hS)
  have hsiK : splitIdx (chars.length / (B * S)) f * S ≤
      chars.length / (B * S) * S :=
    Nat.mul_le_mul_right S (splitIdx_le _ f hf0 hf1)
  have hxlen : (chars.take (chars.length / (B * S) * (B * S))).length =
      B * (chars.length / (B * S) * S) := by
    rw [List.length_take, Nat.min_eq_left (Nat.div_mul_le_self _ _)]
    ring
  have hylen : ((chars.drop 1).take (chars.length / (B * S) * (B * S))).length =
      B * (chars.length / (B * S) * S) := by
    rw [List.length_take, List.length_drop]
    have h2 : chars.length / (B * S) * (B * S) =
        B * (chars.length / (B * S) * S) := by ring
    omega
  have hxmod : (chars.take (chars.length / (B * S) * (B * S))).length % B = 0 := by
    rw [hxlen, Nat.mul_comm B _]
    exact Nat.mul_mod_left _ B
  have hymod :
      ((chars.drop 1).take (chars.length / (B * S) * (B * S))).length % B = 0 := by
    rw [hylen, Nat.mul_comm B _]
    exact Nat.mul_mod_left _ B
  have hsome : split_data chars B S f =
      some ((npSplitRows (chars.take (chars.length / (B * S) * (B * S))) B).map
              (fun r => r.take (splitIdx (chars.length / (B * S)) f * S)),
            (npSplitRows ((chars.drop 1).take (chars.length / (B * S) * (B * S))) B).map
              (fun r => r.take (splitIdx (chars.length / (B * S)) f * S)),
            (npSplitRows (chars.take (chars.length / (B * S) * (B * S))) B).map
              (fun r => r.drop (splitIdx (chars.length / (B * S)) f * S)),
            (npSplitRows ((chars.drop 1).take (chars.length / (B * S) * (B * S))) B).map
              (fun r => r.drop (splitIdx (chars.length / (B * S)) f * S))) := by
    simp only [split_data]
    rw [if_neg h0, if_pos hxmod, if_pos hymod]
  refine ⟨_, _, _, _, hsome, splitIdx_eq_floor _ f hf0, ?_, ?_, ?_, ?_, ?_, ?_⟩
  · simp [length_npSplitRows]
  · intro r hr
    obtain ⟨row, hrow, rfl⟩ := List.mem_map.mp hr
    obtain ⟨i, hi, hreq, hrlen⟩ := npSplitRows_mem _ B _ hxlen row hrow
    rw [List.length_take, hrlen]
    omega
  · simp [length_npSplitRows]
  · intro r hr
    obtain ⟨row, hrow, rfl⟩ := List.mem_map.mp hr
    obtain ⟨i, hi, hreq, hrlen⟩ := npSplitRows_mem _ B _ hxlen row hrow
    rw [List.length_drop, hrlen, Nat.sub_mul]
  · intro i j hi hj
    have hjsi : j < splitIdx (chars.length / (B * S)) f * S := by omega
    have hiK1 : (i + 1) * (chars.length / (B * S) * S) ≤
        B * (chars.length / (B * S) * S) :=
      Nat.mul_le_mul_right _ hi
    rw [Nat.succ_mul] at hiK1
    have hjK : j < chars.length / (B * S) * S := lt_of_lt_of_le hjsi hsiK
    have hj1K : j + 1 < chars.length / (B * S) * S := lt_of_lt_of_le hj hsiK
    rw [map_row_getD _ _ i (by rw [length_npSplitRows]; exact hi),
        map_row_getD _ _ i (by rw [length_npSplitRows]; exact hi),
        List.getElem?_take_of_lt hjsi, List.getElem?_take_of_lt hj,
        npSplitRows_getD_entry _ B _ i j hylen hi hjK,
        npSplitRows_getD_entry _ B _ i (j + 1) hxlen hi hj1K,
        List.getElem?_take_of_lt (by
          have h2 : chars.length / (B * S) * (B * S) =
              B * (chars.length / (B * S) * S) := by ring
          omega),
        List.getElem?_take_of_lt (by
          have h2 : chars.length / (B * S) * (B * S) =
              B * (chars.length / (B * S) * S) := by ring
          omega),
        List.getElem?_drop]
    have hidx : 1 + (i * (chars.length / (B * S) * S) + j) =
        i * (chars.length / (B * S) * S) + (j + 1) := by omega
    rw [hidx]
  · intro i j hi hj
    have hiK1 : (i + 1) * (chars.length / (B * S) * S) ≤
        B * (chars.length / (B * S) * S) :=
      Nat.mul_le_mul_right _ hi
    rw [Nat.succ_mul] at hiK1
    have hjK : j < chars.length / (B * S) * S := lt_of_lt_of_le hj hsiK
    rw [map_row_getD _ _ i (by rw [length_npSplitRows]; exact hi),
        List.getElem?_take_of_lt hj,
        npSplitRows_getD_entry _ B _ i j hylen hi hjK,
        List.getElem?_take_of_lt (by
          have h2 : chars.length / (B * S) * (B * S) =
              B * (chars.length / (B * S) * S) := by ring
          omega),
        List.getElem?_drop]
    have hidx : 1 + (i * (chars.length / (B * S) * S) + j) =
        i * (chars.length / (B * S) * S) + j + 1 := by omega
    rw [hidx]

/-- Witness for C2 amended: the concrete stream `[0,1,2,3,4]` with `B = 2`,
`S = 1`, `split_frac = 1` (so `n_batches = 2` and one spare trailing
token). -/
theorem split_data_spec_witness :
    0 < 2 ∧ 0 < 1 ∧ (0 : ℚ) ≤ 1 ∧ (1 : ℚ) ≤ 1 ∧
    2 * 1 ≤ ([0, 1, 2, 3, 4] : List Nat).length ∧
    ([0, 1, 2, 3, 4] : List Nat).length / (2 * 1) * (2 * 1) + 1 ≤
      ([0, 1, 2, 3, 4] : List Nat).length ∧
    SplitDataSpec [0, 1, 2, 3, 4] 2 1 1 :=
  ⟨by decide, by decide, by decide, by decide, by decide, by decide,
    split_data_spec [0, 1, 2, 3, 4] 2 1 1 (by decide) (by decide) (by decide)
      (by decide) (by decide) (by decide)⟩

/-- Witness for C6: the concrete matrices `X = [[1,2],[3,4]]`,
`Y = [[5,6],[7,8]]` with `B = C = 2` and window width `S = 1`. -/
theorem get_batch_spec_witness :
    ([[1, 2], [3, 4]] : List (List Nat)).length = 2 ∧
    ([[5, 6], [7, 8]] : List (List Nat)).length = 2 ∧ 0 < 2 ∧
    (∀ r ∈ ([[1, 2], [3, 4]] : List (List Nat)), r.length = 2) ∧
    (∀ r ∈ ([[5, 6], [7, 8]] : List (List Nat)), r.length = 2) ∧ 0 < 1 ∧
    IterateBatchesSpec [[1, 2], [3, 4]] [[5, 6], [7, 8]] 2 2 1 :=
  ⟨by decide, by decide, by decide, by decide, by decide, by decide,
    get_batch_spec [[1, 2], [3, 4]] [[5, 6], [7, 8]] 2 2 1 (by decide)
      (by decide) (by decide) (by decide) (by decide) (by decide)⟩

/-- C3.  For every probability distribution `p` over `V` symbols and every
`top_n` with `1 ≤ top_n ≤ V`, top-N-restricted sampling is sound: the
surviving index set of `pick_top_n` has exactly `top_n` members, each
carrying probability at least that of every zeroed symbol (so the survivors
are `top_n` highest-probability symbols of `p`); all other symbols receive
probability zero after truncation; the surviving probabilities are
renormalized to sum to 1; and any symbol the categorical draw can emit is
one of the survivors. -/
theorem pick_top_n_sound (p : List ℚ) (top_n : Nat)
    (hpos : ∀ x ∈ p, 0 ≤ x) (hsum : p.sum = 1)
    (h1 : 1 ≤ top_n) (h2 : top_n ≤ p.length) :
    TopNSound p top_n := by
  have ht : top_n ≠ 0 := by omega
  have hT := truncTopN_sum_ne_zero p top_n hpos hsum h1 h2
  refine ⟨keptIdx_length p top_n ht h2, zeroed_kept_dominance p top_n ht,
    ?_, ?_, ?_⟩
  · intro j hj
    have hjl : j < p.length := mem_zeroedIdx_lt p top_n j hj
    rw [topNProbs, map_div_getD _ _ j (by rw [truncTopN_length]; exact hjl),
      truncTopN_getD_zeroed p top_n j hj, zero_div]
  · rw [topNProbs, sum_map_div, div_self hT]
  · intro c hc
    rw [canPick] at hc
    by_cases hcl : c < p.length
    · rcases mem_zeroed_or_kept p top_n c ht hcl with hz | hk
      · exfalso
        rw [topNProbs, map_div_getD _ _ c (by rw [truncTopN_length]; exact hcl),
          truncTopN_getD_zeroed p top_n c hz, zero_div] at hc
        exact lt_irrefl 0 hc
      · exact hk
    · exfalso
      have hnone : (topNProbs p top_n).getD c 0 = 0 := by
        rw [List.getD_eq_getElem?_getD, List.getElem?_eq_none]
        · rfl
        · rw [topNProbs, List.length_map, truncTopN_length]
          omega
      rw [hnone] at hc
      exact lt_irrefl 0 hc

/-- Witness for C3: the concrete distribution `[1, 0, 0]` over 3 symbols with
`top_n = 2`. -/
theorem pick_top_n_sound_witness :
    (∀ x ∈ ([1, 0, 0] : List ℚ), 0 ≤ x) ∧ ([1, 0, 0] : List ℚ).sum = 1 ∧
    1 ≤ 2 ∧ 2 ≤ ([1, 0, 0] : List ℚ).length ∧ TopNSound [1, 0, 0] 2 :=
  ⟨by decide, by simp, by decide, by decide,
    pick_top_n_sound [1, 0, 0] 2 (by decide) (by simp) (by decide) (by decide)⟩

/-- C10.  `pick_top_n` mutates its caller's array in place:
`np.squeeze(preds)` is a view, so the assignment through
`np.argsort(p)[:-top_n]` overwrites every entry outside the `top_n` largest
with zero in the caller's array, while entries at surviving indices keep
their values (the later renormalization rebinds a local name only and is
invisible to the caller).  Consequently the input distribution is not
preserved across the call whenever some zeroed entry was nonzero. -/
theorem pick_top_n_frame (p : List ℚ) (top_n : Nat) (j : Nat)
    (hj : j ∈ zeroedIdx p top_n) :
    (truncTopN p top_n).getD j 0 = 0 ∧
    (truncTopN p top_n).length = p.length ∧
    (∀ k, k < p.length → k ∉ zeroedIdx p top_n →
      (truncTopN p top_n).getD k 0 = p.getD k 0) ∧
    (p.getD j 0 ≠ 0 → truncTopN p top_n ≠ p) := by
  refine ⟨truncTopN_getD_zeroed p top_n j hj, truncTopN_length p top_n,
    fun k hk hkz => truncTopN_getD_other p top_n k hk hkz, ?_⟩
  intro hne heq
  have h0 := truncTopN_getD_zeroed p top_n j hj
  rw [heq] at h0
  exact hne h0

/-- Witness for C10: the concrete array `[2, 1]` with `top_n = 1`, where
index 1 (the smaller entry) is zeroed in place. -/
theorem pick_top_n_frame_witness :
    1 ∈ zeroedIdx [2, 1] 1 ∧
    ((truncTopN [2, 1] 1).getD 1 0 = 0 ∧
     (truncTopN [2, 1] 1).length = ([2, 1] : List ℚ).length ∧
     (∀ k, k < ([2, 1] : List ℚ).length → k ∉ zeroedIdx [2, 1] 1 →
       (truncTopN [2, 1] 1).getD k 0 = ([2, 1] : List ℚ).getD k 0) ∧
     (([2, 1] : List ℚ).getD 1 0 ≠ 0 → truncTopN [2, 1] 1 ≠ [2, 1])) :=
  ⟨by decide, pick_top_n_frame [2, 1] 1 1 (by decide)⟩
